import Mathlib

/-!
Verification of the ALAP (as-late-as-possible) scheduling pass
`ALAPScheduleAnalysis.run` from
`qiskit/transpiler/passes/scheduling/scheduling/alap.py`.

The pass walks the DAG's op nodes in reverse topological order, keeps an
`idle_before` clock per bit (qubit or clbit), computes for each node a
backward interval `[t0, t1]` with `t1 = t0 + duration`, and finally flips
the backward end times into forward start times via
`start = circuit_duration - t1`.

Embedding choices:
* Python integers are `Int` (clocks can go negative when
  `clbit_write_latency > duration`, which the code does not guard).
* Python exceptions are an `Except` error monad; the two
  `TranspilerError` raise sites are distinguished as `mappingError`
  (physical-circuit check) and `configurationError` (stretch check),
  `_get_node_duration` failure is `durationUnavailable`, and Python's
  `ValueError` from `max()` on an empty sequence is `emptySequenceError`.
* The `idle_before` dict is a total function `Bit → Int`; Python would
  raise `KeyError` for bits outside `dag.qubits + dag.clbits`, so the
  whole-run theorems assume nodes only reference registered bits.
* `node.op` class dispatch (`CONDITIONAL_SUPPORTED`, `Measure`, default)
  becomes a `Kind` tag matched in the same order as the `if`/`elif`
  chain of the source.
-/

/-- Operation-kind tag of a node, standing for the `isinstance` dispatch
on `node.op` in the source (`CONDITIONAL_SUPPORTED`, `Measure`, or the
default branch for standard gates and directives such as barriers). -/
inductive Kind where
  | standard
  | conditionSupported
  | measurement
  | directive
deriving DecidableEq, Repr

/-- A scheduling resource: a qubit (primary) or a clbit (secondary),
identified by its index. -/
inductive Bit where
  | q (i : Nat)
  | c (i : Nat)
deriving DecidableEq, Repr

/-- A DAG op node: kind tag, qubit arguments, clbit arguments, and the
duration the oracle `_get_node_duration` would return (`none` when the
oracle cannot resolve it). -/
structure Node where
  kind : Kind
  qargs : List Nat
  cargs : List Nat
  duration : Option Int
deriving DecidableEq, Repr

/-- The error outcomes of `ALAPScheduleAnalysis.run`. -/
inductive SchedulingError where
  | mappingError
  | configurationError
  | durationUnavailable
  | emptySequenceError
deriving DecidableEq, Repr

/-- The part of a `DAGCircuit` that `run` consumes: the quantum-register
names, the registered qubits and clbits, and the op nodes in (forward)
topological order. -/
structure DAG where
  qregNames : List String
  qubits : List Nat
  clbits : List Nat
  topoNodes : List Node

/-- The part of the pass's `property_set` that `run` reads. -/
structure PropertySet where
  timeUnit : String
  clbitWriteLatency : Option Int

/-- Qubit arguments of a node as `Bit`s. -/
def qargBits (n : Node) : List Bit := n.qargs.map Bit.q

/-- Clbit arguments of a node as `Bit`s. -/
def cargBits (n : Node) : List Bit := n.cargs.map Bit.c

/-- All registered bits of the DAG, `dag.qubits + dag.clbits`. -/
def allBits (dag : DAG) : List Bit :=
  dag.qubits.map Bit.q ++ dag.clbits.map Bit.c

/-- Python's `max()` over a list: fails on an empty sequence. -/
def pyMax : List Int → Except SchedulingError Int
  | [] => .error .emptySequenceError
  | x :: xs => .ok (xs.foldl max x)

/-- `self._get_node_duration(node, dag)`: returns the node's duration or
raises when the oracle cannot resolve it. -/
def getNodeDuration (n : Node) : Except SchedulingError Int :=
  match n.duration with
  | some d => .ok d
  | none => .error .durationUnavailable

/-- `for bit in bits: idle_before[bit] = v`. -/
def updateBits (st : Bit → Int) (bits : List Bit) (v : Int) : Bit → Int :=
  bits.foldl (fun s b => Function.update s b v) st

/-- The all-zero initial clock assignment
(`idle_before = {q: 0 for q in dag.qubits + dag.clbits}`). -/
def zeroIdle : Bit → Int := fun _ => 0

/-- One iteration of the backward loop body for a node: fetch the
duration, compute `t0`/`t1` per the kind dispatch, update the clocks of
the node's cargs (measurement only) and qargs, and return the new clock
assignment together with `t1` (the value recorded in
`node_start_time[node]`). -/
def scheduleStep (cwl : Int) (st : Bit → Int) (n : Node) :
    Except SchedulingError ((Bit → Int) × Int) :=
  match getNodeDuration n with
  | .error e => .error e
  | .ok d =>
    if n.kind = Kind.conditionSupported then
      match pyMax ((qargBits n).map st) with
      | .error e => .error e
      | .ok t0 => .ok (updateBits st (qargBits n) (t0 + d), t0 + d)
    else if n.kind = Kind.measurement then
      match pyMax ((qargBits n ++ cargBits n).map st) with
      | .error e => .error e
      | .ok t0 =>
        .ok (updateBits (updateBits st (cargBits n) (t0 + (d - cwl)))
              (qargBits n) (t0 + d), t0 + d)
    else
      match pyMax ((qargBits n ++ cargBits n).map st) with
      | .error e => .error e
      | .ok t0 => .ok (updateBits st (qargBits n) (t0 + d), t0 + d)

/-- The backward loop over a list of nodes already given in processing
order (i.e. reverse topological order).  Returns the final clock
assignment and the list of recorded `t1` values, aligned with the
processing order. -/
def backwardPass (cwl : Int) (st : Bit → Int) :
    List Node → Except SchedulingError ((Bit → Int) × List Int)
  | [] => .ok (st, [])
  | n :: rest =>
    match scheduleStep cwl st n with
    | .error e => .error e
    | .ok (st1, t1) =>
      match backwardPass cwl st1 rest with
      | .error e => .error e
      | .ok (stf, ts) => .ok (stf, t1 :: ts)

/-- `ALAPScheduleAnalysis.run`: precondition checks, backward pass over
`reversed(topological_op_nodes)`, then the finalizer
`circuit_duration = max(idle_before.values())` and
`node_start_time = {n: circuit_duration - t1}`.  The returned start-time
list is aligned with `dag.topoNodes` (forward topological order). -/
def run (ps : PropertySet) (dag : DAG) :
    Except SchedulingError (List Int × Int) :=
  if ¬ (dag.qregNames.length = 1 ∧ "q" ∈ dag.qregNames) then
    .error SchedulingError.mappingError
  else if ps.timeUnit = "stretch" then
    .error SchedulingError.configurationError
  else
    match backwardPass (ps.clbitWriteLatency.getD 0) zeroIdle
        dag.topoNodes.reverse with
    | .error e => .error e
    | .ok (stf, t1s) =>
      match pyMax ((allBits dag).map stf) with
      | .error e => .error e
      | .ok cd => .ok (t1s.reverse.map (fun t1 => cd - t1), cd)

/-- Value of a clbit clock after one loop iteration, `none` when the
iteration raises.  Used to exhibit concrete behaviours of the loop
body. -/
def stepClbitClock (cwl : Int) (st : Bit → Int) (n : Node) (i : Nat) :
    Option Int :=
  match scheduleStep cwl st n with
  | .ok (st1, _) => some (st1 (Bit.c i))
  | .error _ => none

/-- The `t1` recorded for a node by one loop iteration, `none` when the
iteration raises. -/
def stepT1 (cwl : Int) (st : Bit → Int) (n : Node) : Option Int :=
  match scheduleStep cwl st n with
  | .ok (_, t1) => some t1
  | .error _ => none

/-! ### Basic lemmas about the embedding's building blocks -/

theorem updateBits_apply (st : Bit → Int) (bits : List Bit) (v : Int)
    (b : Bit) : updateBits st bits v b = if b ∈ bits then v else st b := by
  induction bits generalizing st with
  | nil => simp [updateBits]
  | cons x xs ih =>
    show updateBits (Function.update st x v) xs v b = _
    rw [ih]
    by_cases hx : b ∈ xs
    · simp [hx]
    · by_cases hbx : b = x
      · subst hbx
        simp [hx, Function.update_same]
      · simp [hx, hbx, Function.update_noteq hbx]

theorem le_foldl_max (a : Int) (xs : List Int) : a ≤ xs.foldl max a := by
  induction xs generalizing a with
  | nil => simp
  | cons x xs ih => exact le_trans (le_max_left a x) (ih (max a x))

theorem mem_le_foldl_max (a : Int) (xs : List Int) :
    ∀ x ∈ xs, x ≤ xs.foldl max a := by
  induction xs generalizing a with
  | nil => simp
  | cons y ys ih =>
    intro x hx
    rcases List.mem_cons.mp hx with h | h
    · subst h
      exact le_trans (le_max_right a x) (le_foldl_max (max a x) ys)
    · exact ih (max a y) x h

theorem foldl_max_mem (a : Int) (xs : List Int) :
    xs.foldl max a = a ∨ xs.foldl max a ∈ xs := by
  induction xs generalizing a with
  | nil => simp
  | cons y ys ih =>
    rcases ih (max a y) with h | h
    · rcases max_choice a y with hm | hm
      · left; simpa [hm] using h
      · right; simp only [List.foldl_cons]
        rw [h, hm]; exact List.mem_cons_self y ys
    · right; exact List.mem_cons_of_mem y h

theorem pyMax_ok_mem {l : List Int} {m : Int} (h : pyMax l = .ok m) :
    m ∈ l := by
  cases l with
  | nil => simp [pyMax] at h
  | cons x xs =>
    simp only [pyMax, Except.ok.injEq] at h
    subst h
    rcases foldl_max_mem x xs with h | h
    · rw [h]; exact List.mem_cons_self x xs
    · exact List.mem_cons_of_mem x h

theorem pyMax_ok_le {l : List Int} {m : Int} (h : pyMax l = .ok m) :
    ∀ x ∈ l, x ≤ m := by
  cases l with
  | nil => simp [pyMax] at h
  | cons y ys =>
    simp only [pyMax, Except.ok.injEq] at h
    subst h
    intro x hx
    rcases List.mem_cons.mp hx with h | h
    · subst h; exact le_foldl_max x ys
    · exact mem_le_foldl_max y ys x h

theorem pyMax_isOk {l : List Int} (h : l ≠ []) :
    ∃ m, pyMax l = .ok m := by
  cases l with
  | nil => exact absurd rfl h
  | cons x xs => exact ⟨xs.foldl max x, rfl⟩

theorem mem_qargBits {n : Node} {b : Bit} :
    b ∈ qargBits n ↔ ∃ i ∈ n.qargs, b = Bit.q i := by
  simp only [qargBits, List.mem_map]
  constructor
  · rintro ⟨i, hi, rfl⟩; exact ⟨i, hi, rfl⟩
  · rintro ⟨i, hi, rfl⟩; exact ⟨i, hi, rfl⟩

theorem mem_cargBits {n : Node} {b : Bit} :
    b ∈ cargBits n ↔ ∃ i ∈ n.cargs, b = Bit.c i := by
  simp only [cargBits, List.mem_map]
  constructor
  · rintro ⟨i, hi, rfl⟩; exact ⟨i, hi, rfl⟩
  · rintro ⟨i, hi, rfl⟩; exact ⟨i, hi, rfl⟩

theorem qbit_not_mem_cargBits (n : Node) (r : Nat) :
    Bit.q r ∉ cargBits n := by
  intro h
  rcases mem_cargBits.mp h with ⟨i, _, h⟩
  exact Bit.noConfusion h

/-! ### Inversion and characterization of one loop iteration -/

/-- Validity of a node's duration: the oracle resolves it and it is
nonnegative. -/
def durNonneg (n : Node) : Prop :=
  ∃ d, n.duration = some d ∧ 0 ≤ d

/-- Full per-node validity: resolvable nonnegative duration, and for
measurement nodes the clbit write latency does not exceed the
duration. -/
def durOkFull (cwl : Int) (n : Node) : Prop :=
  ∃ d, n.duration = some d ∧ 0 ≤ d ∧
    (n.kind = Kind.measurement → cwl ≤ d)

theorem scheduleStep_ok_cases {cwl : Int} {st : Bit → Int} {n : Node}
    {st1 : Bit → Int} {t1 : Int}
    (h : scheduleStep cwl st n = .ok (st1, t1)) :
    ∃ d t0, n.duration = some d ∧ t1 = t0 + d ∧
      ((n.kind = Kind.conditionSupported ∧
          pyMax ((qargBits n).map st) = .ok t0 ∧
          st1 = updateBits st (qargBits n) t1) ∨
       (n.kind = Kind.measurement ∧
          pyMax ((qargBits n ++ cargBits n).map st) = .ok t0 ∧
          st1 = updateBits (updateBits st (cargBits n) (t0 + (d - cwl)))
                  (qargBits n) t1) ∨
       (n.kind ≠ Kind.conditionSupported ∧ n.kind ≠ Kind.measurement ∧
          pyMax ((qargBits n ++ cargBits n).map st) = .ok t0 ∧
          st1 = updateBits st (qargBits n) t1)) := by
  unfold scheduleStep at h
  split at h
  next e heq => exact absurd h (by simp)
  next d heq =>
    have hd : n.duration = some d := by
      unfold getNodeDuration at heq
      cases hn : n.duration <;> rw [hn] at heq <;> simp_all
    split at h
    next hcs =>
      split at h
      next e heq2 => exact absurd h (by simp)
      next t0 heq2 =>
        simp only [Except.ok.injEq, Prod.mk.injEq] at h
        obtain ⟨hst, ht⟩ := h
        exact ⟨d, t0, hd, ht.symm, Or.inl ⟨hcs, heq2, by rw [← hst, ht]⟩⟩
    next hcs =>
      split at h
      next hms =>
        split at h
        next e heq2 => exact absurd h (by simp)
        next t0 heq2 =>
          simp only [Except.ok.injEq, Prod.mk.injEq] at h
          obtain ⟨hst, ht⟩ := h
          exact ⟨d, t0, hd, ht.symm,
            Or.inr (Or.inl ⟨hms, heq2, by rw [← hst, ht]⟩)⟩
      next hms =>
        split at h
        next e heq2 => exact absurd h (by simp)
        next t0 heq2 =>
          simp only [Except.ok.injEq, Prod.mk.injEq] at h
          obtain ⟨hst, ht⟩ := h
          exact ⟨d, t0, hd, ht.symm,
            Or.inr (Or.inr ⟨hcs, hms, heq2, by rw [← hst, ht]⟩)⟩

/-- Every loop iteration ends by writing `t1` to every qarg clock. -/
theorem scheduleStep_qarg_set {cwl : Int} {st : Bit → Int} {n : Node}
    {st1 : Bit → Int} {t1 : Int}
    (h : scheduleStep cwl st n = .ok (st1, t1)) {r : Nat}
    (hr : r ∈ n.qargs) : st1 (Bit.q r) = t1 := by
  have hb : Bit.q r ∈ qargBits n := mem_qargBits.mpr ⟨r, hr, rfl⟩
  rcases scheduleStep_ok_cases h with
    ⟨d, t0, hd, ht1, ⟨hk, hm, hst⟩ | ⟨hk, hm, hst⟩ | ⟨hk1, hk2, hm, hst⟩⟩ <;>
  · rw [hst, updateBits_apply]
    simp [hb]

/-- When a loop iteration succeeds and `r` is one of the node's qargs,
the recorded `t1` is at least the qarg's previous clock plus the
duration. -/
theorem scheduleStep_t1_lower {cwl : Int} {st : Bit → Int} {n : Node}
    {st1 : Bit → Int} {t1 d : Int}
    (h : scheduleStep cwl st n = .ok (st1, t1))
    (hd : n.duration = some d) {r : Nat} (hr : r ∈ n.qargs) :
    st (Bit.q r) + d ≤ t1 := by
  have hb : Bit.q r ∈ qargBits n := mem_qargBits.mpr ⟨r, hr, rfl⟩
  rcases scheduleStep_ok_cases h with
    ⟨d', t0, hd', ht1, ⟨hk, hm, hst⟩ | ⟨hk, hm, hst⟩ | ⟨hk1, hk2, hm, hst⟩⟩ <;>
  · rw [hd] at hd'
    obtain rfl : d = d' := Option.some.injEq _ _ ▸ hd'
    subst ht1
    have hx : st (Bit.q r) ≤ t0 := by
      apply pyMax_ok_le hm
      simp only [List.mem_map, List.mem_append]
      exact ⟨Bit.q r, by simp [hb], rfl⟩
    linarith

/-- A qubit clock never decreases across a successful loop iteration
with nonnegative duration (the clbit write in the measurement branch
never touches qubit clocks). -/
theorem scheduleStep_mono_q {cwl : Int} {st : Bit → Int} {n : Node}
    {st1 : Bit → Int} {t1 : Int}
    (h : scheduleStep cwl st n = .ok (st1, t1)) (hn : durNonneg n)
    (r : Nat) : st (Bit.q r) ≤ st1 (Bit.q r) := by
  obtain ⟨d, hd, hdpos⟩ := hn
  by_cases hb : Bit.q r ∈ qargBits n
  · rcases mem_qargBits.mp hb with ⟨i, hi, hbi⟩
    obtain rfl : r = i := Bit.q.injEq _ _ ▸ hbi
    have := scheduleStep_qarg_set h hi
    rw [this]
    have := scheduleStep_t1_lower h hd hi
    linarith
  · rcases scheduleStep_ok_cases h with
      ⟨d', t0, hd', ht1, ⟨hk, hm, hst⟩ | ⟨hk, hm, hst⟩ | ⟨hk1, hk2, hm, hst⟩⟩
    · rw [hst, updateBits_apply]; simp [hb]
    · rw [hst, updateBits_apply]
      simp only [hb, if_false]
      rw [updateBits_apply]
      simp [qbit_not_mem_cargBits]
    · rw [hst, updateBits_apply]; simp [hb]

/-- Full monotonicity of one loop iteration: with a nonnegative
duration, and (for measurement nodes) a write latency not exceeding the
duration, every clock is only ever pushed up. -/
theorem scheduleStep_mono {cwl : Int} {st : Bit → Int} {n : Node}
    {st1 : Bit → Int} {t1 : Int}
    (h : scheduleStep cwl st n = .ok (st1, t1))
    (hn : durOkFull cwl n) (b : Bit) : st b ≤ st1 b := by
  obtain ⟨d, hd, hdpos, hcwl⟩ := hn
  cases b with
  | q r => exact scheduleStep_mono_q h ⟨d, hd, hdpos⟩ r
  | c i =>
    have hnq : Bit.c i ∉ qargBits n := by
      intro hmem
      rcases mem_qargBits.mp hmem with ⟨j, _, hj⟩
      exact Bit.noConfusion hj
    rcases scheduleStep_ok_cases h with
      ⟨d', t0, hd', ht1, ⟨hk, hm, hst⟩ | ⟨hk, hm, hst⟩ | ⟨hk1, hk2, hm, hst⟩⟩
    · rw [hst, updateBits_apply]; simp [hnq]
    · rw [hd] at hd'
      obtain rfl : d = d' := Option.some.injEq _ _ ▸ hd'
      rw [hst, updateBits_apply]
      simp only [hnq, if_false]
      rw [updateBits_apply]
      by_cases hc : Bit.c i ∈ cargBits n
      · simp only [hc, if_true]
        have hx : st (Bit.c i) ≤ t0 := by
          apply pyMax_ok_le hm
          simp only [List.mem_map, List.mem_append]
          exact ⟨Bit.c i, Or.inr hc, rfl⟩
        have := hcwl hk
        linarith
      · simp [hc]
    · rw [hst, updateBits_apply]; simp [hnq]

/-- A loop iteration on a node with a resolvable duration and at least
one qarg always succeeds. -/
theorem scheduleStep_ok_of_some {cwl : Int} {st : Bit → Int} {n : Node}
    {d : Int} (hd : n.duration = some d) (hq : n.qargs ≠ []) :
    ∃ st1 t1, scheduleStep cwl st n = .ok (st1, t1) := by
  have hq1 : (qargBits n).map st ≠ [] := by
    simp [qargBits, hq]
  have hq2 : (qargBits n ++ cargBits n).map st ≠ [] := by
    simp [qargBits, hq]
  unfold scheduleStep getNodeDuration
  simp only [hd]
  by_cases hcs : n.kind = Kind.conditionSupported
  · rw [if_pos hcs]
    obtain ⟨m, hm⟩ := pyMax_isOk hq1
    rw [hm]
    exact ⟨_, _, rfl⟩
  · rw [if_neg hcs]
    by_cases hms : n.kind = Kind.measurement
    · rw [if_pos hms]
      obtain ⟨m, hm⟩ := pyMax_isOk hq2
      rw [hm]
      exact ⟨_, _, rfl⟩
    · rw [if_neg hms]
      obtain ⟨m, hm⟩ := pyMax_isOk hq2
      rw [hm]
      exact ⟨_, _, rfl⟩

/-! ### Lemmas about the backward pass -/

theorem backwardPass_cons_inv {cwl : Int} {st stf : Bit → Int} {n : Node}
    {rest : List Node} {ts : List Int}
    (h : backwardPass cwl st (n :: rest) = .ok (stf, ts)) :
    ∃ st1 t1 ts2, scheduleStep cwl st n = .ok (st1, t1) ∧
      backwardPass cwl st1 rest = .ok (stf, ts2) ∧ ts = t1 :: ts2 := by
  unfold backwardPass at h
  split at h
  next e heq => exact absurd h (by simp)
  next st1 t1 heq =>
    split at h
    next e heq2 => exact absurd h (by simp)
    next stf2 ts2 heq2 =>
      simp only [Except.ok.injEq, Prod.mk.injEq] at h
      exact ⟨st1, t1, ts2, heq, h.1 ▸ heq2, h.2.symm⟩

theorem backwardPass_append {cwl : Int} :
    ∀ (xs : List Node) {ys : List Node} {st stf : Bit → Int}
      {ts : List Int},
      backwardPass cwl st (xs ++ ys) = .ok (stf, ts) →
      ∃ st1 ts1 ts2, backwardPass cwl st xs = .ok (st1, ts1) ∧
        backwardPass cwl st1 ys = .ok (stf, ts2) ∧
        ts = ts1 ++ ts2 ∧ ts1.length = xs.length := by
  intro xs
  induction xs with
  | nil =>
    intro ys st stf ts h
    exact ⟨st, [], ts, rfl, h, rfl, rfl⟩
  | cons n rest ih =>
    intro ys st stf ts h
    rw [List.cons_append] at h
    obtain ⟨st1, t1, ts2, hstep, hpass, hts⟩ := backwardPass_cons_inv h
    obtain ⟨stm, tsa, tsb, hxs, hys, htseq, hlen⟩ := ih hpass
    refine ⟨stm, t1 :: tsa, tsb, ?_, hys, ?_, ?_⟩
    · simp only [backwardPass, hstep, hxs]
    · rw [hts, htseq]; rfl
    · simp [hlen]

theorem backwardPass_mono_q {cwl : Int} :
    ∀ {ns : List Node} {st stf : Bit → Int} {ts : List Int},
      backwardPass cwl st ns = .ok (stf, ts) →
      (∀ n ∈ ns, durNonneg n) →
      ∀ r, st (Bit.q r) ≤ stf (Bit.q r) := by
  intro ns
  induction ns with
  | nil =>
    intro st stf ts h _ r
    unfold backwardPass at h
    simp only [Except.ok.injEq, Prod.mk.injEq] at h
    rw [h.1]
  | cons n rest ih =>
    intro st stf ts h hdur r
    obtain ⟨st1, t1, ts2, hstep, hpass, _⟩ := backwardPass_cons_inv h
    have h1 := scheduleStep_mono_q hstep (hdur n (List.mem_cons_self n rest)) r
    have h2 := ih hpass (fun m hm => hdur m (List.mem_cons_of_mem n hm)) r
    exact le_trans h1 h2

theorem backwardPass_mono {cwl : Int} :
    ∀ {ns : List Node} {st stf : Bit → Int} {ts : List Int},
      backwardPass cwl st ns = .ok (stf, ts) →
      (∀ n ∈ ns, durOkFull cwl n) →
      ∀ b, st b ≤ stf b := by
  intro ns
  induction ns with
  | nil =>
    intro st stf ts h _ b
    unfold backwardPass at h
    simp only [Except.ok.injEq, Prod.mk.injEq] at h
    rw [h.1]
  | cons n rest ih =>
    intro st stf ts h hdur b
    obtain ⟨st1, t1, ts2, hstep, hpass, _⟩ := backwardPass_cons_inv h
    have h1 := scheduleStep_mono hstep (hdur n (List.mem_cons_self n rest)) b
    have h2 := ih hpass (fun m hm => hdur m (List.mem_cons_of_mem n hm)) b
    exact le_trans h1 h2

theorem backwardPass_length {cwl : Int} :
    ∀ {ns : List Node} {st stf : Bit → Int} {ts : List Int},
      backwardPass cwl st ns = .ok (stf, ts) → ts.length = ns.length := by
  intro ns
  induction ns with
  | nil =>
    intro st stf ts h
    unfold backwardPass at h
    simp only [Except.ok.injEq, Prod.mk.injEq] at h
    rw [← h.2]
    rfl
  | cons n rest ih =>
    intro st stf ts h
    obtain ⟨st1, t1, ts2, hstep0, hpass, hts⟩ := backwardPass_cons_inv h
    subst hts
    simp [ih hpass]

/-! ### Lemmas about the full pass `run` -/

theorem run_ok_inv {ps : PropertySet} {dag : DAG} {starts : List Int}
    {cd : Int} (h : run ps dag = .ok (starts, cd)) :
    (dag.qregNames.length = 1 ∧ "q" ∈ dag.qregNames) ∧
    ps.timeUnit ≠ "stretch" ∧
    ∃ stf t1s,
      backwardPass (ps.clbitWriteLatency.getD 0) zeroIdle
        dag.topoNodes.reverse = .ok (stf, t1s) ∧
      pyMax ((allBits dag).map stf) = .ok cd ∧
      starts = t1s.reverse.map (fun t1 => cd - t1) := by
  unfold run at h
  split at h
  next hbad => exact absurd h (by simp)
  next hok =>
    rw [not_not] at hok
    split at h
    next hstretch => exact absurd h (by simp)
    next hstretch =>
      refine ⟨hok, hstretch, ?_⟩
      split at h
      next e heq => exact absurd h (by simp)
      next stf t1s heq =>
        split at h
        next e heq2 => exact absurd h (by simp)
        next cd2 heq2 =>
          simp only [Except.ok.injEq, Prod.mk.injEq] at h
          obtain ⟨hstarts, hcd⟩ := h
          subst hcd
          exact ⟨stf, t1s, heq, heq2, hstarts.symm⟩

/-- All recorded `t1` values of a pass started from nonnegative clocks
are nonnegative (needs nonnegative durations and, for measurements,
`cwl ≤ d` to keep the clocks nonnegative). -/
theorem backwardPass_ts_nonneg {cwl : Int} :
    ∀ {ns : List Node} {st stf : Bit → Int} {ts : List Int},
      backwardPass cwl st ns = .ok (stf, ts) →
      (∀ n ∈ ns, durOkFull cwl n) →
      (∀ b, 0 ≤ st b) →
      ∀ t ∈ ts, 0 ≤ t := by
  intro ns
  induction ns with
  | nil =>
    intro st stf ts h _ _ t ht
    unfold backwardPass at h
    simp only [Except.ok.injEq, Prod.mk.injEq] at h
    rw [← h.2] at ht
    exact absurd ht (List.not_mem_nil t)
  | cons n rest ih =>
    intro st stf ts h hdur hst t ht
    obtain ⟨st1, t1, ts2, hstep, hpass, hts⟩ := backwardPass_cons_inv h
    subst hts
    rcases List.mem_cons.mp ht with rfl | ht2
    · rcases scheduleStep_ok_cases hstep with
        ⟨d, t0, hd, ht1, ⟨-, hm, -⟩ | ⟨-, hm, -⟩ | ⟨-, -, hm, -⟩⟩ <;>
      · obtain ⟨dd, hdd, hdpos, _⟩ := hdur n (List.mem_cons_self n rest)
        rw [hd] at hdd
        obtain rfl : d = dd := Option.some.injEq _ _ ▸ hdd
        have ht0 : 0 ≤ t0 := by
          rcases List.mem_map.mp (pyMax_ok_mem hm) with ⟨b, _, hb⟩
          rw [← hb]
          exact hst b
        rw [ht1]
        linarith
    · have hst1 : ∀ b, 0 ≤ st1 b := fun b =>
        le_trans (hst b)
          (scheduleStep_mono hstep (hdur n (List.mem_cons_self n rest)) b)
      exact ih hpass (fun m hm => hdur m (List.mem_cons_of_mem n hm))
        hst1 t ht2

/-- Every recorded `t1` is dominated by some registered qubit's final
clock value. -/
theorem backwardPass_ts_le_final {cwl : Int} {Q : List Nat} :
    ∀ {ns : List Node} {st stf : Bit → Int} {ts : List Int},
      backwardPass cwl st ns = .ok (stf, ts) →
      (∀ n ∈ ns, durNonneg n ∧ n.qargs ≠ [] ∧ ∀ i ∈ n.qargs, i ∈ Q) →
      ∀ t ∈ ts, ∃ i ∈ Q, t ≤ stf (Bit.q i) := by
  intro ns
  induction ns with
  | nil =>
    intro st stf ts h _ t ht
    unfold backwardPass at h
    simp only [Except.ok.injEq, Prod.mk.injEq] at h
    rw [← h.2] at ht
    exact absurd ht (List.not_mem_nil t)
  | cons n rest ih =>
    intro st stf ts h hwf t ht
    obtain ⟨st1, t1, ts2, hstep, hpass, hts⟩ := backwardPass_cons_inv h
    subst hts
    obtain ⟨hdn, hq, hsub⟩ := hwf n (List.mem_cons_self n rest)
    rcases List.mem_cons.mp ht with rfl | ht2
    · obtain ⟨i, hi⟩ := List.exists_mem_of_ne_nil n.qargs hq
      refine ⟨i, hsub i hi, ?_⟩
      have h1 : st1 (Bit.q i) = t := scheduleStep_qarg_set hstep hi
      have h2 := backwardPass_mono_q hpass
        (fun m hm => (hwf m (List.mem_cons_of_mem n hm)).1) i
      rw [← h1]
      exact h2
    · exact ih hpass (fun m hm => hwf m (List.mem_cons_of_mem n hm)) t ht2

/-- The first processed node (the chronologically last node of the
circuit) gets `t0 = 0` from the all-zero initial clocks, hence
`t1 = duration`. -/
theorem scheduleStep_from_zero {cwl : Int} {n : Node} {d : Int}
    (hd : n.duration = some d) (hq : n.qargs ≠ []) :
    ∃ st1, scheduleStep cwl zeroIdle n = .ok (st1, d) := by
  obtain ⟨st1, t1, hstep⟩ := @scheduleStep_ok_of_some cwl zeroIdle n d hd hq
  rcases scheduleStep_ok_cases hstep with
    ⟨d', t0, hd', ht1, ⟨-, hm, -⟩ | ⟨-, hm, -⟩ | ⟨-, -, hm, -⟩⟩ <;>
  · rw [hd] at hd'
    obtain rfl : d = d' := Option.some.injEq _ _ ▸ hd'
    have ht0 : t0 = 0 := by
      rcases List.mem_map.mp (pyMax_ok_mem hm) with ⟨b, _, hb⟩
      rw [← hb]
      rfl
    refine ⟨st1, ?_⟩
    rw [hstep, ht1, ht0, zero_add]

/-! ### Claim theorems -/

/-- A qubit bit is never one of a node's qarg `Bit`s when it is a
clbit. -/
theorem cbit_not_mem_qargBits (n : Node) (i : Nat) :
    Bit.c i ∉ qargBits n := by
  intro h
  rcases mem_qargBits.mp h with ⟨j, _, hj⟩
  exact Bit.noConfusion hj

/-- A default-branch (standard) node with one qarg and one carg used to
exhibit the behaviour of the `Directive / Standard` policy on secondary
resources. -/
def stdNode : Node :=
  { kind := Kind.standard, qargs := [0], cargs := [0], duration := some 5 }

/-- Counterexample for claim C1: processing the standard node `stdNode`
(duration 5) from all-zero clocks records `t1 = 5`, but leaves the
secondary resource's clock at `0`, not at `t1`. -/
theorem alap_default_secondary_cex :
    stepT1 0 zeroIdle stdNode = some 5 ∧
    stepClbitClock 0 zeroIdle stdNode 0 = some 0 ∧ (0 : Int) ≠ 5 := by
  refine ⟨by decide, by decide, by decide⟩

/-- Claim C1 (amended): for a Standard or Directive node, the backward
pass computes `t0` as the max of `idle_before` over primary ∪ secondary
resources, sets `t1 = t0 + d`, writes `idle_before[r] = t1` for each
primary resource, and leaves every secondary resource's clock
unchanged (secondary clocks are only read, never written, in this
branch). -/
theorem alap_default_policy (cwl : Int) (st : Bit → Int) (n : Node)
    (d t0 : Int)
    (hkind : n.kind = Kind.standard ∨ n.kind = Kind.directive)
    (hd : n.duration = some d)
    (hmax : pyMax ((qargBits n ++ cargBits n).map st) = .ok t0) :
    ∃ st1, scheduleStep cwl st n = .ok (st1, t0 + d) ∧
      (∀ i ∈ n.qargs, st1 (Bit.q i) = t0 + d) ∧
      (∀ i, st1 (Bit.c i) = st (Bit.c i)) ∧
      (∀ i ∈ n.qargs, st (Bit.q i) ≤ t0) ∧
      (∀ i ∈ n.cargs, st (Bit.c i) ≤ t0) := by
  have hcs : n.kind ≠ Kind.conditionSupported := by
    rcases hkind with h | h <;> rw [h] <;> exact fun hc => Kind.noConfusion hc
  have hms : n.kind ≠ Kind.measurement := by
    rcases hkind with h | h <;> rw [h] <;> exact fun hc => Kind.noConfusion hc
  have hstep : scheduleStep cwl st n =
      .ok (updateBits st (qargBits n) (t0 + d), t0 + d) := by
    unfold scheduleStep getNodeDuration
    simp only [hd]
    rw [if_neg hcs, if_neg hms, hmax]
  refine ⟨_, hstep, ?_, ?_, ?_, ?_⟩
  · intro i hi
    rw [updateBits_apply]
    simp [mem_qargBits.mpr ⟨i, hi, rfl⟩]
  · intro i
    rw [updateBits_apply]
    simp [cbit_not_mem_qargBits]
  · intro i hi
    apply pyMax_ok_le hmax
    exact List.mem_map.mpr ⟨Bit.q i,
      List.mem_append.mpr (Or.inl (mem_qargBits.mpr ⟨i, hi, rfl⟩)), rfl⟩
  · intro i hi
    apply pyMax_ok_le hmax
    exact List.mem_map.mpr ⟨Bit.c i,
      List.mem_append.mpr (Or.inr (mem_cargBits.mpr ⟨i, hi, rfl⟩)), rfl⟩

/-- Witness for `alap_default_policy` at the concrete node `stdNode`
from all-zero clocks. -/
theorem alap_default_policy_witness :
    ∃ st1, scheduleStep 0 zeroIdle stdNode = .ok (st1, 0 + 5) ∧
      (∀ i ∈ stdNode.qargs, st1 (Bit.q i) = 0 + 5) ∧
      (∀ i, st1 (Bit.c i) = zeroIdle (Bit.c i)) ∧
      (∀ i ∈ stdNode.qargs, zeroIdle (Bit.q i) ≤ 0) ∧
      (∀ i ∈ stdNode.cargs, zeroIdle (Bit.c i) ≤ 0) :=
  alap_default_policy 0 zeroIdle stdNode 5 0 (Or.inl rfl) rfl rfl

/-- Claim C2 (confirmed): for a Measurement node with duration `d`, the
backward pass computes `t0` as the max of `idle_before` over primary ∪
secondary resources, sets `t1 = t0 + d`, writes
`idle_before[r] = t0 + (d - clbit_write_latency)` for each secondary
resource, and `idle_before[r] = t1` for each primary resource. -/
theorem alap_measurement_policy (cwl : Int) (st : Bit → Int) (n : Node)
    (d t0 : Int)
    (hkind : n.kind = Kind.measurement)
    (hd : n.duration = some d)
    (hmax : pyMax ((qargBits n ++ cargBits n).map st) = .ok t0) :
    ∃ st1, scheduleStep cwl st n = .ok (st1, t0 + d) ∧
      (∀ i ∈ n.cargs, st1 (Bit.c i) = t0 + (d - cwl)) ∧
      (∀ i ∈ n.qargs, st1 (Bit.q i) = t0 + d) ∧
      (∀ i ∈ n.qargs, st (Bit.q i) ≤ t0) ∧
      (∀ i ∈ n.cargs, st (Bit.c i) ≤ t0) := by
  have hcs : n.kind ≠ Kind.conditionSupported := by
    rw [hkind]; exact fun hc => Kind.noConfusion hc
  have hstep : scheduleStep cwl st n =
      .ok (updateBits (updateBits st (cargBits n) (t0 + (d - cwl)))
        (qargBits n) (t0 + d), t0 + d) := by
    unfold scheduleStep getNodeDuration
    simp only [hd]
    rw [if_neg hcs, if_pos hkind, hmax]
  refine ⟨_, hstep, ?_, ?_, ?_, ?_⟩
  · intro i hi
    rw [updateBits_apply]
    simp only [cbit_not_mem_qargBits, if_false]
    rw [updateBits_apply]
    simp [mem_cargBits.mpr ⟨i, hi, rfl⟩]
  · intro i hi
    rw [updateBits_apply]
    simp [mem_qargBits.mpr ⟨i, hi, rfl⟩]
  · intro i hi
    apply pyMax_ok_le hmax
    exact List.mem_map.mpr ⟨Bit.q i,
      List.mem_append.mpr (Or.inl (mem_qargBits.mpr ⟨i, hi, rfl⟩)), rfl⟩
  · intro i hi
    apply pyMax_ok_le hmax
    exact List.mem_map.mpr ⟨Bit.c i,
      List.mem_append.mpr (Or.inr (mem_cargBits.mpr ⟨i, hi, rfl⟩)), rfl⟩

/-- The measurement node of the spec's concrete scenario 1
(`d = 10`). -/
def measNode : Node :=
  { kind := Kind.measurement, qargs := [0], cargs := [0],
    duration := some 10 }

/-- Witness for `alap_measurement_policy`: scenario 1 of the spec,
`d = 10`, `clbit_write_latency = 4`, all-zero clocks: the clbit clock
is set to `0 + (10 - 4) = 6`, the qubit clock to `10`. -/
theorem alap_measurement_policy_witness :
    ∃ st1, scheduleStep 4 zeroIdle measNode = .ok (st1, 0 + 10) ∧
      (∀ i ∈ measNode.cargs, st1 (Bit.c i) = 0 + (10 - 4)) ∧
      (∀ i ∈ measNode.qargs, st1 (Bit.q i) = 0 + 10) ∧
      (∀ i ∈ measNode.qargs, zeroIdle (Bit.q i) ≤ 0) ∧
      (∀ i ∈ measNode.cargs, zeroIdle (Bit.c i) ≤ 0) :=
  alap_measurement_policy 4 zeroIdle measNode 10 0 rfl rfl rfl

/-- Claim C3 (confirmed): for a ConditionSupported node, `t0` is the max
of `idle_before` over the primary resources only, `t1 = t0 + d`, each
primary resource's clock is set to `t1`, every other clock (in
particular every secondary clock) is untouched, and the computation
does not read secondary clocks: any clock assignment agreeing on the
node's primary resources produces the same `t1`. -/
theorem alap_condition_supported_policy (cwl : Int) (st : Bit → Int)
    (n : Node) (d t0 : Int)
    (hkind : n.kind = Kind.conditionSupported)
    (hd : n.duration = some d)
    (hmax : pyMax ((qargBits n).map st) = .ok t0) :
    ∃ st1, scheduleStep cwl st n = .ok (st1, t0 + d) ∧
      (∀ i ∈ n.qargs, st1 (Bit.q i) = t0 + d) ∧
      (∀ b, b ∉ qargBits n → st1 b = st b) ∧
      (∀ st2, (∀ i ∈ n.qargs, st2 (Bit.q i) = st (Bit.q i)) →
        ∃ st2', scheduleStep cwl st2 n = .ok (st2', t0 + d)) := by
  have hstep : scheduleStep cwl st n =
      .ok (updateBits st (qargBits n) (t0 + d), t0 + d) := by
    unfold scheduleStep getNodeDuration
    simp only [hd]
    rw [if_pos hkind, hmax]
  refine ⟨_, hstep, ?_, ?_, ?_⟩
  · intro i hi
    rw [updateBits_apply]
    simp [mem_qargBits.mpr ⟨i, hi, rfl⟩]
  · intro b hb
    rw [updateBits_apply]
    simp [hb]
  · intro st2 hagree
    have hmaps : (qargBits n).map st2 = (qargBits n).map st := by
      apply List.map_congr_left
      intro b hb
      rcases mem_qargBits.mp hb with ⟨i, hi, rfl⟩
      exact hagree i hi
    refine ⟨updateBits st2 (qargBits n) (t0 + d), ?_⟩
    unfold scheduleStep getNodeDuration
    simp only [hd]
    rw [if_pos hkind, hmaps, hmax]

/-- A ConditionSupported node used to witness the C3 policy. -/
def condNode : Node :=
  { kind := Kind.conditionSupported, qargs := [1], cargs := [2],
    duration := some 7 }

/-- Witness for `alap_condition_supported_policy` at `condNode` from
all-zero clocks. -/
theorem alap_condition_supported_policy_witness :
    ∃ st1, scheduleStep 3 zeroIdle condNode = .ok (st1, 0 + 7) ∧
      (∀ i ∈ condNode.qargs, st1 (Bit.q i) = 0 + 7) ∧
      (∀ b, b ∉ qargBits condNode → st1 b = zeroIdle b) ∧
      (∀ st2, (∀ i ∈ condNode.qargs, st2 (Bit.q i) = zeroIdle (Bit.q i)) →
        ∃ st2', scheduleStep 3 st2 condNode = .ok (st2', 0 + 7)) :=
  alap_condition_supported_policy 3 zeroIdle condNode 7 0 rfl rfl rfl

/-- A zero-duration measurement node used to refute unconditional
monotonicity of the `idle_before` clocks. -/
def zeroDurMeasNode : Node :=
  { kind := Kind.measurement, qargs := [0], cargs := [0],
    duration := some 0 }

/-- Counterexample for claim C6: with `clbit_write_latency = 5` (a
nonnegative value) and a measurement node of duration `0`, the clbit
clock is updated from `0` down to `0 + (0 - 5) = -5`: the update is
*not* monotonically non-decreasing for every nonnegative write
latency. -/
theorem alap_monotone_cex :
    zeroIdle (Bit.c 0) = 0 ∧
    stepClbitClock 5 zeroIdle zeroDurMeasNode 0 = some (-5) ∧
    (-5 : Int) < 0 := by
  refine ⟨rfl, by decide, by decide⟩

/-- Claim C6 (amended): every clock update during node processing
writes a value greater than or equal to the clock's previous value,
provided the node's duration `d` is nonnegative and, for measurement
nodes, the clbit write latency satisfies `clbit_write_latency ≤ d`
(without the latter bound the measurement clbit update can decrease the
clock). -/
theorem alap_idle_before_monotone (cwl : Int) (st : Bit → Int)
    (n : Node) (st1 : Bit → Int) (t1 : Int)
    (hwf : durOkFull cwl n)
    (h : scheduleStep cwl st n = .ok (st1, t1)) :
    ∀ b, st b ≤ st1 b :=
  scheduleStep_mono h hwf

/-- Witness for `alap_idle_before_monotone`: the measurement node of
scenario 1 (`d = 10`, latency `4`) from all-zero clocks, checked on the
two clocks the node touches. -/
theorem alap_idle_before_monotone_witness :
    zeroIdle (Bit.q 0) ≤
      updateBits (updateBits zeroIdle (cargBits measNode) (0 + (10 - 4)))
        (qargBits measNode) (0 + 10) (Bit.q 0) ∧
    zeroIdle (Bit.c 0) ≤
      updateBits (updateBits zeroIdle (cargBits measNode) (0 + (10 - 4)))
        (qargBits measNode) (0 + 10) (Bit.c 0) :=
  ⟨alap_idle_before_monotone 4 zeroIdle measNode _ (0 + 10)
      ⟨10, rfl, by decide, fun _ => by decide⟩ rfl (Bit.q 0),
   alap_idle_before_monotone 4 zeroIdle measNode _ (0 + 10)
      ⟨10, rfl, by decide, fun _ => by decide⟩ rfl (Bit.c 0)⟩

/-- Property set with the variable "stretch" time unit. -/
def stretchPS : PropertySet := { timeUnit := "stretch", clbitWriteLatency := none }

/-- Property set with a fixed time unit and no configured write
latency. -/
def dtPS : PropertySet := { timeUnit := "dt", clbitWriteLatency := none }

/-- A DAG whose quantum registers are two registers (not the single
physical register `q`). -/
def twoRegDAG : DAG :=
  { qregNames := ["a", "b"], qubits := [0], clbits := [],
    topoNodes := [] }

/-- A DAG over the single physical register `q` with one qubit and no
nodes. -/
def okEmptyDAG : DAG :=
  { qregNames := ["q"], qubits := [0], clbits := [], topoNodes := [] }

/-- Counterexample for claim C8 as stated: when the time unit is
"stretch" *and* the register check also fails, the call fails with the
mapping error, not the configuration error — the register check runs
first. -/
theorem alap_precondition_order_cex :
    run stretchPS twoRegDAG = .error SchedulingError.mappingError ∧
    SchedulingError.mappingError ≠ SchedulingError.configurationError := by
  exact ⟨rfl, by decide⟩

/-- Claim C8 (amended): both precondition errors are raised before any
node is processed and cause no mutation.  The register check runs
first: if the graph's primary resources are not a single register
named `q`, the call fails with the mapping error (whatever the time
unit); if the register check passes and the time unit is "stretch",
the call fails with the configuration error.  In either case the
result is the bare error — no start-time map is produced — and the
outcome is independent of the node list, so no node is visited and no
clock value is ever observable. -/
theorem alap_precondition_errors (ps : PropertySet) (dag : DAG) :
    (¬ (dag.qregNames.length = 1 ∧ "q" ∈ dag.qregNames) →
      ∀ nodes2, run ps { dag with topoNodes := nodes2 } =
        .error SchedulingError.mappingError) ∧
    ((dag.qregNames.length = 1 ∧ "q" ∈ dag.qregNames) →
      ps.timeUnit = "stretch" →
      ∀ nodes2, run ps { dag with topoNodes := nodes2 } =
        .error SchedulingError.configurationError) := by
  constructor
  · intro hbad nodes2
    unfold run
    rw [if_pos]
    exact hbad
  · intro hok hstretch nodes2
    unfold run
    rw [if_neg (not_not.mpr hok), if_pos hstretch]

/-- Witness for `alap_precondition_errors`: the mapping error on a
two-register DAG (even with the stretch unit configured), and the
configuration error on a well-mapped DAG with the stretch unit; both
irrespective of the node list. -/
theorem alap_precondition_errors_witness :
    run stretchPS twoRegDAG = .error SchedulingError.mappingError ∧
    run stretchPS okEmptyDAG = .error SchedulingError.configurationError := by
  constructor
  · exact (alap_precondition_errors stretchPS twoRegDAG).1 (by decide)
      twoRegDAG.topoNodes
  · exact (alap_precondition_errors stretchPS okEmptyDAG).2 (by decide) rfl
      okEmptyDAG.topoNodes

/-- If every node has at least one qarg and some node's duration is
unresolvable, the backward loop aborts with `durationUnavailable`. -/
theorem backwardPass_duration_failure {cwl : Int} :
    ∀ {ns : List Node} {st : Bit → Int},
      (∀ n ∈ ns, n.qargs ≠ []) →
      (∃ n ∈ ns, n.duration = none) →
      backwardPass cwl st ns = .error .durationUnavailable := by
  intro ns
  induction ns with
  | nil =>
    intro st _ hex
    rcases hex with ⟨n, hn, _⟩
    exact absurd hn (List.not_mem_nil n)
  | cons n rest ih =>
    intro st hq hex
    cases hn : n.duration with
    | none =>
      have hstep : scheduleStep cwl st n = .error .durationUnavailable := by
        unfold scheduleStep getNodeDuration
        simp only [hn]
      unfold backwardPass
      rw [hstep]
    | some d =>
      obtain ⟨st1, t1, hstep⟩ := @scheduleStep_ok_of_some cwl st n d hn
        (hq n (List.mem_cons_self n rest))
      have hex2 : ∃ m ∈ rest, m.duration = none := by
        rcases hex with ⟨m, hm, hmd⟩
        rcases List.mem_cons.mp hm with rfl | hm2
        · rw [hn] at hmd; exact absurd hmd (by simp)
        · exact ⟨m, hm2, hmd⟩
      simp only [backwardPass, hstep,
        ih (fun m hm => hq m (List.mem_cons_of_mem n hm)) hex2]

/-- Claim C9 (confirmed): if the duration oracle fails to resolve some
node's duration, the whole pass aborts with `durationUnavailable`: no
start-time mapping is produced (the result is the bare error, so the
partially built timeline is discarded and nothing observable
changes). -/
theorem alap_duration_failure (ps : PropertySet) (dag : DAG)
    (hmap : dag.qregNames.length = 1 ∧ "q" ∈ dag.qregNames)
    (hstretch : ps.timeUnit ≠ "stretch")
    (hq : ∀ n ∈ dag.topoNodes, n.qargs ≠ [])
    (hfail : ∃ n ∈ dag.topoNodes, n.duration = none) :
    run ps dag = .error SchedulingError.durationUnavailable := by
  unfold run
  rw [if_neg (not_not.mpr hmap), if_neg hstretch]
  have hq2 : ∀ n ∈ dag.topoNodes.reverse, n.qargs ≠ [] := by
    intro n hn
    exact hq n (List.mem_reverse.mp hn)
  have hfail2 : ∃ n ∈ dag.topoNodes.reverse, n.duration = none := by
    rcases hfail with ⟨n, hn, hnd⟩
    exact ⟨n, List.mem_reverse.mpr hn, hnd⟩
  rw [backwardPass_duration_failure hq2 hfail2]

/-- A single-register DAG containing one node whose duration the oracle
cannot resolve. -/
def noDurDAG : DAG :=
  { qregNames := ["q"], qubits := [0], clbits := [],
    topoNodes := [{ kind := Kind.standard, qargs := [0], cargs := [],
                    duration := none }] }

/-- Witness for `alap_duration_failure` at the concrete DAG
`noDurDAG`. -/
theorem alap_duration_failure_witness :
    run dtPS noDurDAG = .error SchedulingError.durationUnavailable :=
  alap_duration_failure dtPS noDurDAG (by decide) (by decide)
    (by intro n hn; simp only [noDurDAG, List.mem_singleton] at hn
        subst hn; decide)
    ⟨_, List.mem_singleton.mpr rfl, rfl⟩

/-- Claim C10 (confirmed): a graph with exactly one quantum register
whose name is not `q` fails the mapping check even though it is a
single-register circuit: the check demands both a register count of
one and the presence of a register named exactly `q`. -/
theorem alap_register_name_check (ps : PropertySet) (dag : DAG)
    (name : String) (hreg : dag.qregNames = [name])
    (hname : name ≠ "q") :
    run ps dag = .error SchedulingError.mappingError := by
  unfold run
  rw [if_pos]
  rintro ⟨-, hmem⟩
  rw [hreg] at hmem
  exact hname (List.mem_singleton.mp hmem).symm

/-- A DAG identical to a physical one except that its only register is
named `r` instead of `q`. -/
def wrongNameDAG : DAG :=
  { qregNames := ["r"], qubits := [0], clbits := [],
    topoNodes := [{ kind := Kind.standard, qargs := [0], cargs := [],
                    duration := some 3 }] }

/-- Witness for `alap_register_name_check` at the concrete DAG
`wrongNameDAG`. -/
theorem alap_register_name_check_witness :
    run dtPS wrongNameDAG = .error SchedulingError.mappingError :=
  alap_register_name_check dtPS wrongNameDAG "r" rfl (by decide)

/-- Claim C5 (confirmed): after the traversal, the returned
`circuit_duration` is the maximum of the final `idle_before` clocks
over all registered resources (primary and secondary), and the
start-time list is exactly `circuit_duration - t1` applied to the
backward ends recorded for the nodes (in forward order). -/
theorem alap_finalizer (ps : PropertySet) (dag : DAG)
    (starts : List Int) (cd : Int) (stf : Bit → Int) (t1s : List Int)
    (hrun : run ps dag = .ok (starts, cd))
    (hbp : backwardPass (ps.clbitWriteLatency.getD 0) zeroIdle
      dag.topoNodes.reverse = .ok (stf, t1s)) :
    starts = t1s.reverse.map (fun t1 => cd - t1) ∧
    (∀ b ∈ allBits dag, stf b ≤ cd) ∧
    (∃ b ∈ allBits dag, stf b = cd) := by
  obtain ⟨-, -, stf', t1s', hbp', hmax, hstarts⟩ := run_ok_inv hrun
  rw [hbp] at hbp'
  simp only [Except.ok.injEq, Prod.mk.injEq] at hbp'
  obtain ⟨rfl, rfl⟩ := hbp'
  refine ⟨hstarts, ?_, ?_⟩
  · intro b hb
    exact pyMax_ok_le hmax _ (List.mem_map.mpr ⟨b, hb, rfl⟩)
  · rcases List.mem_map.mp (pyMax_ok_mem hmax) with ⟨b, hb, hcd⟩
    exact ⟨b, hb, hcd⟩

/-- Property set of the spec's concrete scenario 1: fixed time unit,
`clbit_write_latency = 4`. -/
def measPS : PropertySet := { timeUnit := "dt", clbitWriteLatency := some 4 }

/-- DAG of the spec's concrete scenario 1: one qubit, one clbit, a
single measurement node of duration 10. -/
def measDAG : DAG :=
  { qregNames := ["q"], qubits := [0], clbits := [0],
    topoNodes := [measNode] }

/-- Witness for `alap_finalizer`: scenario 1 yields `start_time = 0`,
`circuit_duration = 10`, with final clocks `q0 = 10` and `c0 = 6`. -/
theorem alap_finalizer_witness :
    ([(0 : Int)] = ([(10 : Int)]).reverse.map (fun t1 => 10 - t1)) ∧
    (∀ b ∈ allBits measDAG,
      updateBits (updateBits zeroIdle (cargBits measNode) 6)
        (qargBits measNode) 10 b ≤ 10) ∧
    (∃ b ∈ allBits measDAG,
      updateBits (updateBits zeroIdle (cargBits measNode) 6)
        (qargBits measNode) 10 b = 10) :=
  alap_finalizer measPS measDAG [0] 10
    (updateBits (updateBits zeroIdle (cargBits measNode) 6)
      (qargBits measNode) 10) [10] rfl rfl

theorem durOkFull_nonneg {cwl : Int} {n : Node} (h : durOkFull cwl n) :
    durNonneg n := by
  obtain ⟨d, h1, h2, -⟩ := h
  exact ⟨d, h1, h2⟩

/-- A default-branch node of duration 7 touching only a secondary
resource (no qargs). -/
def cargOnlyNode : Node :=
  { kind := Kind.standard, qargs := [], cargs := [0], duration := some 7 }

/-- A single-register DAG whose only node touches no primary resource:
its `t1 = 7` is recorded but never written to any clock. -/
def cargOnlyDAG : DAG :=
  { qregNames := ["q"], qubits := [0], clbits := [0],
    topoNodes := [cargOnlyNode] }

/-- Counterexample for claim C7 as stated: on the input graph
`cargOnlyDAG` the pass succeeds with `circuit_duration = 0` yet assigns
the node the start time `-7`, which lies outside
`[0, circuit_duration]` — the claim is not true for every input
graph. -/
theorem alap_start_time_bounds_cex :
    run dtPS cargOnlyDAG = .ok ([-7], 0) ∧ ¬ (0 ≤ (-7 : Int)) :=
  ⟨rfl, by decide⟩

/-- Claim C7 (amended): under input validity — durations resolve and
are nonnegative, `clbit_write_latency ≤ d` for measurements, every
node has at least one primary resource and its primary resources are
registered qubits — every final start time lies in
`[0, circuit_duration]`, and the chronologically last node — the one
packed against the absolute end of the circuit by the ALAP policy —
has start time `circuit_duration - duration`.  (Without the
primary-resource condition a carg-only node's `t1` is never written to
a clock and its start time can fall below zero.) -/
theorem alap_start_time_bounds (ps : PropertySet) (dag : DAG)
    (starts : List Int) (cd : Int)
    (hwf : ∀ n ∈ dag.topoNodes,
      durOkFull (ps.clbitWriteLatency.getD 0) n ∧ n.qargs ≠ [] ∧
      ∀ i ∈ n.qargs, i ∈ dag.qubits)
    (hrun : run ps dag = .ok (starts, cd)) :
    (∀ s ∈ starts, 0 ≤ s ∧ s ≤ cd) ∧
    (∀ n d, dag.topoNodes.getLast? = some n → n.duration = some d →
      starts.getLast? = some (cd - d)) := by
  obtain ⟨-, -, stf, t1s, hbp, hmax, hstarts⟩ := run_ok_inv hrun
  have hwfR : ∀ n ∈ dag.topoNodes.reverse,
      durOkFull (ps.clbitWriteLatency.getD 0) n ∧ n.qargs ≠ [] ∧
      ∀ i ∈ n.qargs, i ∈ dag.qubits :=
    fun n hn => hwf n (List.mem_reverse.mp hn)
  have hts0 : ∀ t ∈ t1s, 0 ≤ t :=
    backwardPass_ts_nonneg hbp (fun n hn => (hwfR n hn).1)
      (fun _ => le_refl 0)
  have htle : ∀ t ∈ t1s, ∃ i ∈ dag.qubits, t ≤ stf (Bit.q i) :=
    backwardPass_ts_le_final hbp
      (fun n hn => ⟨durOkFull_nonneg (hwfR n hn).1, (hwfR n hn).2.1,
        (hwfR n hn).2.2⟩)
  have hcdle : ∀ i ∈ dag.qubits, stf (Bit.q i) ≤ cd := by
    intro i hi
    exact pyMax_ok_le hmax _ (List.mem_map.mpr ⟨Bit.q i,
      List.mem_append.mpr (Or.inl (List.mem_map.mpr ⟨i, hi, rfl⟩)), rfl⟩)
  constructor
  · intro s hs
    rw [hstarts] at hs
    rcases List.mem_map.mp hs with ⟨t, htmem, rfl⟩
    have ht : t ∈ t1s := List.mem_reverse.mp htmem
    have h0 := hts0 t ht
    obtain ⟨i, hi, hle⟩ := htle t ht
    have hle2 := hcdle i hi
    constructor <;> simp <;> linarith
  · intro n d hlast hd
    obtain ⟨l', hl'⟩ := List.getLast?_eq_some_iff.mp hlast
    have hrev : dag.topoNodes.reverse = n :: l'.reverse := by
      rw [hl']
      simp
    rw [hrev] at hbp
    obtain ⟨st1, t1, ts2, hstep, hpass, hts⟩ := backwardPass_cons_inv hbp
    have hqn : n.qargs ≠ [] := by
      refine (hwf n ?_).2.1
      rw [hl']
      exact List.mem_append.mpr (Or.inr (List.mem_singleton.mpr rfl))
    obtain ⟨st1', hstep'⟩ :=
      @scheduleStep_from_zero (ps.clbitWriteLatency.getD 0) n d hd hqn
    rw [hstep] at hstep'
    simp only [Except.ok.injEq, Prod.mk.injEq] at hstep'
    obtain ⟨-, rfl⟩ := hstep'
    subst hts
    rw [hstarts, List.map_reverse, ← List.head?_reverse,
      List.reverse_reverse]
    rfl

/-- A single standard node of duration 5 on qubit 0. -/
def soloNode : Node :=
  { kind := Kind.standard, qargs := [0], cargs := [], duration := some 5 }

/-- A single-node physical DAG used to witness the start-time
bounds. -/
def soloDAG : DAG :=
  { qregNames := ["q"], qubits := [0], clbits := [],
    topoNodes := [soloNode] }

/-- Witness for `alap_start_time_bounds`: the single-node circuit of
duration 5 yields `starts = [0]`, `circuit_duration = 5`, and its last
node starts at `5 - 5 = 0`. -/
theorem alap_start_time_bounds_witness :
    (∀ s ∈ [(0 : Int)], 0 ≤ s ∧ s ≤ 5) ∧
    (∀ n d, soloDAG.topoNodes.getLast? = some n → n.duration = some d →
      ([(0 : Int)]).getLast? = some (5 - d)) :=
  alap_start_time_bounds dtPS soloDAG [0] 5
    (by
      intro n hn
      simp only [soloDAG, List.mem_singleton] at hn
      subst hn
      exact ⟨⟨5, rfl, by decide, fun hk => nomatch hk⟩, by decide,
        by decide⟩)
    rfl

/-- Claim C4 (confirmed): for two nodes `B` and `A` sharing the primary
resource `r`, with `A` strictly after `B` in forward (topological)
dependency order, the produced start times satisfy
`start_time(A) ≥ start_time(B) + duration(B)` (assuming the run
succeeds and all durations are resolvable and nonnegative).  The
conclusion exhibits the start-time list split at the positions of `B`
and `A`. -/
theorem alap_precedence (ps : PropertySet) (dag : DAG)
    (l1 l2 l3 : List Node) (B A : Node) (r : Nat) (dB : Int)
    (starts : List Int) (cd : Int)
    (hsplit : dag.topoNodes = l1 ++ B :: (l2 ++ A :: l3))
    (hrB : r ∈ B.qargs) (hrA : r ∈ A.qargs)
    (hdB : B.duration = some dB)
    (hdur : ∀ n ∈ dag.topoNodes, durNonneg n)
    (hrun : run ps dag = .ok (starts, cd)) :
    ∃ s1 sB s2 sA s3, starts = s1 ++ sB :: (s2 ++ sA :: s3) ∧
      s1.length = l1.length ∧ s2.length = l2.length ∧
      sB + dB ≤ sA := by
  obtain ⟨-, -, stf, t1s, hbp, hmax, hstarts⟩ := run_ok_inv hrun
  have hrev : dag.topoNodes.reverse =
      l3.reverse ++ A :: (l2.reverse ++ B :: l1.reverse) := by
    rw [hsplit]
    simp [List.reverse_append, List.append_assoc]
  rw [hrev] at hbp
  obtain ⟨stP, tsP, tsR, hP, hR, htsPR, hlenP⟩ := backwardPass_append _ hbp
  obtain ⟨stA, tA, tsR2, hstepA, hR2, htsR⟩ := backwardPass_cons_inv hR
  obtain ⟨stM, tsM, tsR3, hM, hR3, htsM, hlenM⟩ := backwardPass_append _ hR2
  obtain ⟨stB, tB, tsR4, hstepB, hR4, htsB⟩ := backwardPass_cons_inv hR3
  have hA1 : stA (Bit.q r) = tA := scheduleStep_qarg_set hstepA hrA
  have hmeml2 : ∀ n ∈ l2.reverse, durNonneg n := by
    intro n hn
    apply hdur
    rw [hsplit]
    exact List.mem_append.mpr (Or.inr (List.mem_cons_of_mem _
      (List.mem_append.mpr (Or.inl (List.mem_reverse.mp hn)))))
  have hmono := backwardPass_mono_q hM hmeml2 r
  have hB1 := scheduleStep_t1_lower hstepB hdB hrB
  have hkey : tA + dB ≤ tB := by
    rw [hA1] at hmono
    linarith
  have hlen4 : tsR4.length = l1.length := by
    have := backwardPass_length hR4
    simpa using this
  subst htsB
  subst htsM
  subst htsR
  subst htsPR
  refine ⟨tsR4.reverse.map (fun t => cd - t), cd - tB,
    tsM.reverse.map (fun t => cd - t), cd - tA,
    tsP.reverse.map (fun t => cd - t), ?_, ?_, ?_, ?_⟩
  · rw [hstarts]
    simp [List.reverse_append, List.map_append, List.append_assoc]
  · simp [hlen4]
  · simp only [List.length_map, List.length_reverse]
    simpa using hlenM
  · linarith

/-- First node of the spec's concrete scenario 2: duration 5 on
qubit 0. -/
def precNodeB : Node :=
  { kind := Kind.standard, qargs := [0], cargs := [], duration := some 5 }

/-- Second node of the spec's concrete scenario 2: duration 3 on
qubit 0. -/
def precNodeA : Node :=
  { kind := Kind.standard, qargs := [0], cargs := [], duration := some 3 }

/-- The two-node DAG of the spec's concrete scenario 2. -/
def precDAG : DAG :=
  { qregNames := ["q"], qubits := [0], clbits := [],
    topoNodes := [precNodeB, precNodeA] }

/-- Witness for `alap_precedence`: scenario 2 gives
`start_time(B) = 0`, `start_time(A) = 5`, `circuit_duration = 8`, and
`5 ≥ 0 + 5`. -/
theorem alap_precedence_witness :
    ∃ s1 sB s2 sA s3,
      ([(0 : Int), 5]) = s1 ++ sB :: (s2 ++ sA :: s3) ∧
      s1.length = ([] : List Node).length ∧
      s2.length = ([] : List Node).length ∧
      sB + 5 ≤ sA :=
  alap_precedence dtPS precDAG [] [] [] precNodeB precNodeA 0 5 [0, 5] 8
    rfl (by decide) (by decide) rfl
    (by
      intro n hn
      simp only [precDAG, List.mem_cons, List.mem_singleton] at hn
      rcases hn with rfl | rfl | h
      · exact ⟨5, rfl, by decide⟩
      · exact ⟨3, rfl, by decide⟩
      · exact absurd h (List.not_mem_nil n))
    rfl
